import Mathlib

/-!
Verification of the `RingBuffer` class of `RingBuffer_Full.cpp` (a
fixed-capacity circular buffer with overwrite-on-overflow), via a shallow
embedding of its state and operations.

The C++ fields `m_elements`, `m_front`, `m_back`, `m_count` are `uint16_t`;
they are embedded as `Nat` with arithmetic reduced modulo `2 ^ 16 = 65536`
exactly where the C++ increments can wrap.  The backing store
`std::span<DataType> m_ringbuffer` is embedded as a `List α`; the `memset`
to zero bytes on removal is embedded as writing `(0 : α)` for a type with a
`Zero` instance (the class is documented for POD element types, where the
all-zero byte pattern is the zero value).
-/

set_option linter.unusedVariables false

/-- State of `RingBuffer<DataType>`: capacity `m_elements`, backing store
`m_ringbuffer` (the `std::span`), write cursor `m_front`, read cursor
`m_back`, and occupancy `m_count`.  All index/counter fields are `uint16_t`
in the C++, kept here as `Nat` values below `65536`. -/
structure RingBuffer (α : Type) where
  m_elements : Nat
  m_ringbuffer : List α
  m_front : Nat
  m_back : Nat
  m_count : Nat
  deriving DecidableEq

/-- `void AdvanceIndex(uint16_t& ix) { if(++ix >= m_elements) { ix = 0; } }`
The pre-increment wraps at `2 ^ 16` (uint16); the comparison then resets the
index to `0` once it reaches the capacity. -/
def AdvanceIndex (m_elements ix : Nat) : Nat :=
  let ix' := (ix + 1) % 65536
  if m_elements ≤ ix' then 0 else ix'

/-- `RingBuffer(const uint16_t size)`: stores `size` in `m_elements`, zeroes
the three cursors, and points the span at `new DataType[m_elements]`.
`new DataType[n]` default-initializes the array, so for POD element types
the slot contents are indeterminate: the embedding therefore takes the
initial contents as a function `mem` of the slot index (one buffer per
possible ambient memory state).  The `% 65536` reflects the `uint16_t`
parameter type. -/
def mkRingBuffer (size : Nat) (mem : Nat → α) : RingBuffer α :=
  { m_elements := size % 65536
    m_ringbuffer := (List.range (size % 65536)).map mem
    m_front := 0
    m_back := 0
    m_count := 0 }

/-- `bool Add(DataType val)`: writes `val` at `m_front`, advances `m_front`,
increments `m_count` (uint16, wraps at `2 ^ 16`); if the incremented count
exceeds the capacity, advances `m_back`, decrements the count back and
returns `false`, otherwise returns `true`.  Returns the result paired with
the post-state. -/
def RingBuffer.Add (rb : RingBuffer α) (val : α) : Bool × RingBuffer α :=
  let buf := rb.m_ringbuffer.set rb.m_front val
  let front' := AdvanceIndex rb.m_elements rb.m_front
  let count' := (rb.m_count + 1) % 65536
  if rb.m_elements < count' then
    -- `m_count--` cannot wrap here: `count' > m_elements ≥ 0` forces `count' ≥ 1`
    (false, { rb with m_ringbuffer := buf, m_front := front',
                      m_back := AdvanceIndex rb.m_elements rb.m_back,
                      m_count := count' - 1 })
  else
    (true, { rb with m_ringbuffer := buf, m_front := front', m_count := count' })

/-- `bool Remove(DataType& outVal)`: when `m_count > 0`, reads the slot at
`m_back` into `outVal`, `memset`s that slot to zero, advances `m_back` and
decrements `m_count`, returning `true`; otherwise `memset`s `outVal` to zero
and returns `false`.  Returns `(result, outVal, post-state)`. -/
def RingBuffer.Remove [Zero α] (rb : RingBuffer α) : Bool × α × RingBuffer α :=
  if 0 < rb.m_count then
    (true, rb.m_ringbuffer.getD rb.m_back 0,
      { rb with m_ringbuffer := rb.m_ringbuffer.set rb.m_back 0,
                m_back := AdvanceIndex rb.m_elements rb.m_back,
                m_count := rb.m_count - 1 })
  else
    (false, 0, rb)

/-- `bool Remove(void)`: declares a scratch `DataType tmpVal` and returns
`Remove(tmpVal)`, discarding the removed value. -/
def RingBuffer.RemoveVoid [Zero α] (rb : RingBuffer α) : Bool × RingBuffer α :=
  let r := rb.Remove
  (r.1, r.2.2)

/-- One mutating call of the public API, for quantifying over call
sequences. -/
inductive Op (α : Type) where
  | add : α → Op α
  | remove : Op α
  | removeVoid : Op α

/-- Run one operation, keeping only the post-state. -/
def runOp [Zero α] (rb : RingBuffer α) : Op α → RingBuffer α
  | .add v => (rb.Add v).2
  | .remove => rb.Remove.2.2
  | .removeVoid => rb.RemoveVoid.2

/-- Run a sequence of operations left to right. -/
def runOps [Zero α] (rb : RingBuffer α) (ops : List (Op α)) : RingBuffer α :=
  ops.foldl runOp rb

/-- Perform the `Add` calls for a list of values, left to right. -/
def addAll (rb : RingBuffer α) (vs : List α) : RingBuffer α :=
  vs.foldl (fun b v => (b.Add v).2) rb

/-- Perform `n` `Remove(DataType&)` calls, collecting each call's
`(result, outVal)` pair in order, together with the final state. -/
def removeN [Zero α] : RingBuffer α → Nat → List (Bool × α) × RingBuffer α
  | rb, 0 => ([], rb)
  | rb, n + 1 =>
    let r := rb.Remove
    let rest := removeN r.2.2 n
    ((r.1, r.2.1) :: rest.1, rest.2)

/-- The logical element at offset `i` from the read cursor (the slot
`(m_back + i) % m_elements`). -/
def slotAt [Zero α] (rb : RingBuffer α) (i : Nat) : α :=
  rb.m_ringbuffer.getD ((rb.m_back + i) % rb.m_elements) 0

/-- The logically held elements, oldest first. -/
def contents [Zero α] (rb : RingBuffer α) : List α :=
  (List.range rb.m_count).map (slotAt rb)

/-- Structural well-formedness of a reachable buffer state (capacity a
nonzero `uint16_t`, span of length `m_elements`, cursors in range, and the
write cursor determined by the read cursor and the count). -/
def WF (rb : RingBuffer α) : Prop :=
  rb.m_ringbuffer.length = rb.m_elements ∧
  0 < rb.m_elements ∧ rb.m_elements ≤ 65535 ∧
  rb.m_front < rb.m_elements ∧ rb.m_back < rb.m_elements ∧
  rb.m_count ≤ rb.m_elements ∧
  rb.m_front = (rb.m_back + rb.m_count) % rb.m_elements

/-- The state invariant of the specification: the count bounded by the
capacity, both cursors in range, and the cursors coinciding when the buffer
is empty or full. -/
def StateInv (rb : RingBuffer α) : Prop :=
  rb.m_count ≤ rb.m_elements ∧
  rb.m_front < rb.m_elements ∧
  rb.m_back < rb.m_elements ∧
  ((rb.m_count = 0 ∨ rb.m_count = rb.m_elements) → rb.m_front = rb.m_back)

/-- A full buffer at the maximal `uint16_t` capacity `65535`
(reachable by 65535 `Add` calls from a fresh capacity-65535 buffer). -/
def rbFull : RingBuffer Int :=
  ⟨65535, List.replicate 65535 0, 0, 0, 65535⟩

/-- A small full buffer: capacity 3 holding `[5, 6, 7]`, `front = back = 0`. -/
def fullThree : RingBuffer Int :=
  ⟨3, [5, 6, 7], 0, 0, 3⟩

/-- The spec's §8 scenario state 3: capacity 10 after `PopulateAll` and
`Add(11)`, `Add(12)` — storage `[11,12,3..10]`, `front = back = 2`, full. -/
def wrapState : RingBuffer Int :=
  ⟨10, [11, 12, 3, 4, 5, 6, 7, 8, 9, 10], 2, 2, 10⟩

/-- An empty buffer whose cursors are away from 0 and whose slots hold
stale data, as left behind by earlier operations. -/
def idleState : RingBuffer Int :=
  ⟨3, [7, 8, 9], 2, 2, 0⟩

/-! ### List and arithmetic helpers -/

theorem getD_set_self (l : List α) (i : Nat) (a d : α) (h : i < l.length) :
    (l.set i a).getD i d = a := by
  induction l generalizing i with
  | nil => simp at h
  | cons x xs ih =>
    cases i with
    | zero => simp
    | succ n =>
      simp only [List.set_cons_succ, List.getD_cons_succ]
      exact ih n (by simpa using h)

theorem getD_set_ne (l : List α) (i j : Nat) (a d : α) (h : i ≠ j) :
    (l.set i a).getD j d = l.getD j d := by
  induction l generalizing i j with
  | nil => simp
  | cons x xs ih =>
    cases i with
    | zero =>
      cases j with
      | zero => exact absurd rfl h
      | succ m => simp
    | succ n =>
      cases j with
      | zero => simp
      | succ m =>
        simp only [List.set_cons_succ, List.getD_cons_succ]
        exact ih n m (fun hh => h (by rw [hh]))

theorem lt_mod_cancel {n b i c : Nat} (hi : i < n) (hc : c < n)
    (h : (b + i) % n = (b + c) % n) : i = c := by
  have h2 : i ≡ c [MOD n] := Nat.ModEq.add_left_cancel' b h
  have h3 : i % n = c % n := h2
  rwa [Nat.mod_eq_of_lt hi, Nat.mod_eq_of_lt hc] at h3

/-- Within range and a `uint16_t` capacity, `AdvanceIndex` is exactly the
successor modulo the capacity. -/
theorem advanceIndex_eq (cap ix : Nat) (hix : ix < cap) (hcap : cap ≤ 65535) :
    AdvanceIndex cap ix = (ix + 1) % cap := by
  unfold AdvanceIndex
  have h1 : (ix + 1) % 65536 = ix + 1 := Nat.mod_eq_of_lt (by omega)
  simp only [h1]
  by_cases h : cap ≤ ix + 1
  · have he : ix + 1 = cap := by omega
    simp [h, he, Nat.mod_self]
  · have h2 : (ix + 1) % cap = ix + 1 := Nat.mod_eq_of_lt (by omega)
    simp [h, h2]

/-! ### One-step behavior of `Add` and `Remove` -/

/-- `Add` on a buffer that is not full (`m_count < m_elements`): no eviction. -/
theorem Add_not_full (rb : RingBuffer α) (v : α)
    (hcap : rb.m_elements ≤ 65535) (hlt : rb.m_count < rb.m_elements) :
    rb.Add v = (true,
      { rb with m_ringbuffer := rb.m_ringbuffer.set rb.m_front v,
                m_front := AdvanceIndex rb.m_elements rb.m_front,
                m_count := rb.m_count + 1 }) := by
  unfold RingBuffer.Add
  have h1 : (rb.m_count + 1) % 65536 = rb.m_count + 1 := Nat.mod_eq_of_lt (by omega)
  simp only [h1]
  rw [if_neg (by omega)]

/-- `Add` on a full buffer whose capacity is at most `65534`: the count
increment does not wrap, so the eviction branch runs. -/
theorem Add_full (rb : RingBuffer α) (v : α)
    (hcap : rb.m_elements ≤ 65534) (hfull : rb.m_count = rb.m_elements) :
    rb.Add v = (false,
      { rb with m_ringbuffer := rb.m_ringbuffer.set rb.m_front v,
                m_front := AdvanceIndex rb.m_elements rb.m_front,
                m_back := AdvanceIndex rb.m_elements rb.m_back,
                m_count := rb.m_elements }) := by
  unfold RingBuffer.Add
  have h1 : (rb.m_count + 1) % 65536 = rb.m_count + 1 := Nat.mod_eq_of_lt (by omega)
  simp only [h1]
  rw [if_pos (by omega)]
  simp [hfull]

/-- `Remove(DataType&)` on a nonempty buffer. -/
theorem Remove_pos [Zero α] (rb : RingBuffer α) (hpos : 0 < rb.m_count) :
    rb.Remove = (true, rb.m_ringbuffer.getD rb.m_back 0,
      { rb with m_ringbuffer := rb.m_ringbuffer.set rb.m_back 0,
                m_back := AdvanceIndex rb.m_elements rb.m_back,
                m_count := rb.m_count - 1 }) := by
  unfold RingBuffer.Remove
  rw [if_pos hpos]

/-- `Remove(DataType&)` on an empty buffer: no structural mutation. -/
theorem Remove_zero [Zero α] (rb : RingBuffer α) (hz : rb.m_count = 0) :
    rb.Remove = (false, 0, rb) := by
  unfold RingBuffer.Remove
  rw [if_neg (by omega)]

/-! ### Abstraction: effect of one operation on the held elements -/

/-- `Add` on a well-formed non-full buffer: reports `true`, preserves
well-formedness, capacity and the read cursor, increments the count, and
appends the value to the held elements. -/
theorem Add_step [Zero α] (rb : RingBuffer α) (v : α) (h : WF rb)
    (hlt : rb.m_count < rb.m_elements) :
    (rb.Add v).1 = true ∧ WF (rb.Add v).2 ∧
    (rb.Add v).2.m_elements = rb.m_elements ∧
    (rb.Add v).2.m_back = rb.m_back ∧
    (rb.Add v).2.m_count = rb.m_count + 1 ∧
    contents (rb.Add v).2 = contents rb ++ [v] := by
  obtain ⟨hlen, hpos, hcap, hfr, hbk, hcnt, heq⟩ := h
  rw [Add_not_full rb v hcap hlt]
  refine ⟨rfl, ?_, rfl, rfl, rfl, ?_⟩
  · refine ⟨by simpa using hlen, hpos, hcap, ?_, hbk, ?_, ?_⟩
    · show AdvanceIndex rb.m_elements rb.m_front < rb.m_elements
      rw [advanceIndex_eq _ _ hfr hcap]
      exact Nat.mod_lt _ hpos
    · show rb.m_count + 1 ≤ rb.m_elements
      omega
    · show AdvanceIndex rb.m_elements rb.m_front =
        (rb.m_back + (rb.m_count + 1)) % rb.m_elements
      rw [advanceIndex_eq _ _ hfr hcap, heq, Nat.mod_add_mod]
      congr 1
  · show contents
      { rb with m_ringbuffer := rb.m_ringbuffer.set rb.m_front v,
                m_front := AdvanceIndex rb.m_elements rb.m_front,
                m_count := rb.m_count + 1 } = contents rb ++ [v]
    unfold contents slotAt
    show (List.range (rb.m_count + 1)).map
        (fun i => (rb.m_ringbuffer.set rb.m_front v).getD
          ((rb.m_back + i) % rb.m_elements) 0) =
      (List.range rb.m_count).map
        (fun i => rb.m_ringbuffer.getD ((rb.m_back + i) % rb.m_elements) 0) ++ [v]
    rw [List.range_succ, List.map_append, List.map_singleton]
    congr 1
    · refine List.map_congr_left ?_
      intro i hi
      have hi' : i < rb.m_count := List.mem_range.mp hi
      refine getD_set_ne _ _ _ _ _ ?_
      rw [heq]
      intro hcontra
      have : rb.m_count = i := lt_mod_cancel (by omega) (by omega) hcontra
      omega
    · rw [← heq, getD_set_self _ _ _ _ (by rw [hlen]; exact hfr)]

/-- `Remove` on a well-formed nonempty buffer: reports `true`, yields the
oldest held element, preserves well-formedness, capacity and the write
cursor, and decrements the count. -/
theorem Remove_step [Zero α] (rb : RingBuffer α) (h : WF rb)
    (hpos : 0 < rb.m_count) :
    rb.Remove.1 = true ∧
    contents rb = rb.Remove.2.1 :: contents rb.Remove.2.2 ∧
    WF rb.Remove.2.2 ∧
    rb.Remove.2.2.m_count = rb.m_count - 1 ∧
    rb.Remove.2.2.m_elements = rb.m_elements ∧
    rb.Remove.2.2.m_front = rb.m_front := by
  obtain ⟨hlen, hp, hcap, hfr, hbk, hcnt, heq⟩ := h
  rw [Remove_pos rb hpos]
  obtain ⟨c, hc⟩ : ∃ c, rb.m_count = c + 1 := ⟨rb.m_count - 1, by omega⟩
  refine ⟨rfl, ?_, ?_, rfl, rfl, rfl⟩
  · show contents rb = rb.m_ringbuffer.getD rb.m_back 0 :: contents
      { rb with m_ringbuffer := rb.m_ringbuffer.set rb.m_back 0,
                m_back := AdvanceIndex rb.m_elements rb.m_back,
                m_count := rb.m_count - 1 }
    unfold contents slotAt
    show (List.range rb.m_count).map
        (fun i => rb.m_ringbuffer.getD ((rb.m_back + i) % rb.m_elements) 0) =
      rb.m_ringbuffer.getD rb.m_back 0 :: (List.range (rb.m_count - 1)).map
        (fun i => (rb.m_ringbuffer.set rb.m_back 0).getD
          ((AdvanceIndex rb.m_elements rb.m_back + i) % rb.m_elements) 0)
    rw [hc, Nat.add_sub_cancel, List.range_succ_eq_map, List.map_cons, List.map_map]
    congr 1
    · rw [Nat.add_zero, Nat.mod_eq_of_lt hbk]
    · refine List.map_congr_left ?_
      intro i hi
      have hi' : i < c := List.mem_range.mp hi
      simp only [Function.comp_apply]
      rw [advanceIndex_eq _ _ hbk hcap, Nat.mod_add_mod]
      rw [getD_set_ne]
      · rw [show rb.m_back + 1 + i = rb.m_back + (i + 1) by omega]
      · intro hcontra
        have hcontra' : (rb.m_back + 0) % rb.m_elements =
            (rb.m_back + (1 + i)) % rb.m_elements := by
          rw [Nat.add_zero, Nat.mod_eq_of_lt hbk,
            show rb.m_back + (1 + i) = rb.m_back + 1 + i by omega]
          exact hcontra
        have h10 : (0 : Nat) = 1 + i :=
          lt_mod_cancel (by omega) (by omega) hcontra'
        omega
  · refine ⟨by simpa using hlen, hp, hcap, hfr, ?_, ?_, ?_⟩
    · show AdvanceIndex rb.m_elements rb.m_back < rb.m_elements
      rw [advanceIndex_eq _ _ hbk hcap]
      exact Nat.mod_lt _ hp
    · show rb.m_count - 1 ≤ rb.m_elements
      omega
    · show rb.m_front =
        (AdvanceIndex rb.m_elements rb.m_back + (rb.m_count - 1)) % rb.m_elements
      rw [advanceIndex_eq _ _ hbk hcap, Nat.mod_add_mod, heq]
      congr 1
      omega

/-! ### Folded operations -/

/-- Adding a list of values to a well-formed buffer with enough free room:
every call is eviction-free, capacity and read cursor are preserved, the
count grows by the number of values, and the values are appended in order. -/
theorem addAll_spec [Zero α] (vs : List α) :
    ∀ rb : RingBuffer α, WF rb → rb.m_count + vs.length ≤ rb.m_elements →
    WF (addAll rb vs) ∧
    (addAll rb vs).m_elements = rb.m_elements ∧
    (addAll rb vs).m_back = rb.m_back ∧
    (addAll rb vs).m_count = rb.m_count + vs.length ∧
    contents (addAll rb vs) = contents rb ++ vs := by
  induction vs with
  | nil =>
    intro rb h hle
    exact ⟨h, rfl, rfl, by simp [addAll], by simp [addAll]⟩
  | cons v vs ih =>
    intro rb h hle
    have hlt : rb.m_count < rb.m_elements := by
      simp only [List.length_cons] at hle
      omega
    obtain ⟨h1, hwf, hel, hbk, hcnt, hcont⟩ := Add_step rb v h hlt
    have hle' : (rb.Add v).2.m_count + vs.length ≤ (rb.Add v).2.m_elements := by
      rw [hcnt, hel]
      simp only [List.length_cons] at hle
      omega
    obtain ⟨w1, w2, w3, w4, w5⟩ := ih (rb.Add v).2 hwf hle'
    have hstep : addAll rb (v :: vs) = addAll (rb.Add v).2 vs := rfl
    rw [hstep]
    refine ⟨w1, by rw [w2, hel], by rw [w3, hbk], ?_, ?_⟩
    · rw [w4, hcnt]
      simp only [List.length_cons]
      omega
    · rw [w5, hcont]
      simp

/-- Removing `n ≤ m_count` times from a well-formed buffer yields the `n`
oldest held elements in order, each call reporting success. -/
theorem removeN_spec [Zero α] :
    ∀ (n : Nat) (rb : RingBuffer α), WF rb → n ≤ rb.m_count →
    (removeN rb n).1 = ((contents rb).take n).map (fun v => (true, v)) := by
  intro n
  induction n with
  | zero =>
    intro rb h hle
    simp [removeN]
  | succ m ih =>
    intro rb h hle
    have hpos : 0 < rb.m_count := by omega
    obtain ⟨r1, rcont, rwf, rcnt, rel, rfr⟩ := Remove_step rb h hpos
    show (rb.Remove.1, rb.Remove.2.1) :: (removeN rb.Remove.2.2 m).1 =
      ((contents rb).take (m + 1)).map (fun v => (true, v))
    rw [rcont, List.take_succ_cons, List.map_cons, r1]
    congr 1
    exact ih rb.Remove.2.2 rwf (by omega)

/-! ### The freshly constructed buffer -/

/-- A buffer constructed with a nonzero `uint16_t` capacity is well-formed,
whatever the indeterminate initial slot contents are. -/
theorem mk_WF (size : Nat) (mem : Nat → α) (h0 : 0 < size)
    (hcap : size ≤ 65535) : WF (mkRingBuffer size mem) := by
  have hs : size % 65536 = size := Nat.mod_eq_of_lt (by omega)
  unfold mkRingBuffer WF
  simp [hs, h0, hcap]

/-- A freshly constructed buffer holds no elements. -/
theorem contents_mk [Zero α] (size : Nat) (mem : Nat → α) :
    contents (mkRingBuffer size mem) = [] := by
  simp [contents, mkRingBuffer]

/-! ### The capacity-65535 boundary -/

/-- `Add` on a full buffer at the maximal capacity `65535`: the `uint16_t`
count increment wraps to `0`, so the eviction branch is skipped. -/
theorem Add_wrap (rb : RingBuffer α) (v : α)
    (hcap : rb.m_elements = 65535) (hcnt : rb.m_count = 65535) :
    rb.Add v = (true,
      { rb with m_ringbuffer := rb.m_ringbuffer.set rb.m_front v,
                m_front := AdvanceIndex rb.m_elements rb.m_front,
                m_count := 0 }) := by
  simp only [RingBuffer.Add, hcnt, hcap]
  norm_num

/-- At capacity `65535` the eviction branch of `Add` is never taken, in any
state: the wrapped count increment stays below `65536`. -/
theorem Add_cap65535_step (s : RingBuffer α) (v : α)
    (he : s.m_elements = 65535) :
    (s.Add v).1 = true ∧
    (s.Add v).2.m_elements = 65535 ∧
    (s.Add v).2.m_front = AdvanceIndex 65535 s.m_front ∧
    (s.Add v).2.m_back = s.m_back ∧
    (s.Add v).2.m_count = (s.m_count + 1) % 65536 := by
  have hcond : ¬ ((65535 : Nat) < (s.m_count + 1) % 65536) := by
    have := Nat.mod_lt (s.m_count + 1) (show 0 < 65536 by norm_num)
    omega
  simp only [RingBuffer.Add, he]
  rw [if_neg hcond]
  exact ⟨rfl, rfl, rfl, rfl, rfl⟩

/-! ### Operation sequences -/

theorem runOps_append [Zero α] (rb : RingBuffer α) (l1 l2 : List (Op α)) :
    runOps rb (l1 ++ l2) = runOps (runOps rb l1) l2 := by
  simp [runOps, List.foldl_append]

/-- One operation preserves well-formedness, provided the capacity is at
most `65534` (so that the count increment in `Add` cannot wrap). -/
theorem WF_runOp [Zero α] (rb : RingBuffer α) (op : Op α) (h : WF rb)
    (hcap : rb.m_elements ≤ 65534) :
    WF (runOp rb op) ∧ (runOp rb op).m_elements = rb.m_elements := by
  obtain ⟨hlen, hp, hc65, hfr, hbk, hcnt, heq⟩ := h
  cases op with
  | add v =>
    rcases Nat.lt_or_ge rb.m_count rb.m_elements with hlt | hge
    · obtain ⟨_, hwf, hel, _, _, _⟩ :=
        Add_step rb v ⟨hlen, hp, hc65, hfr, hbk, hcnt, heq⟩ hlt
      exact ⟨hwf, hel⟩
    · have hfull : rb.m_count = rb.m_elements := by omega
      show WF (rb.Add v).2 ∧ (rb.Add v).2.m_elements = rb.m_elements
      rw [Add_full rb v hcap hfull]
      have hfb : rb.m_front = rb.m_back := by
        rw [heq, hfull, Nat.add_mod_right, Nat.mod_eq_of_lt hbk]
      refine ⟨⟨by simpa using hlen, hp, hc65, ?_, ?_, le_refl _, ?_⟩, rfl⟩
      · show AdvanceIndex rb.m_elements rb.m_front < rb.m_elements
        rw [advanceIndex_eq _ _ hfr hc65]
        exact Nat.mod_lt _ hp
      · show AdvanceIndex rb.m_elements rb.m_back < rb.m_elements
        rw [advanceIndex_eq _ _ hbk hc65]
        exact Nat.mod_lt _ hp
      · show AdvanceIndex rb.m_elements rb.m_front =
          (AdvanceIndex rb.m_elements rb.m_back + rb.m_elements) % rb.m_elements
        rw [advanceIndex_eq _ _ hfr hc65, advanceIndex_eq _ _ hbk hc65,
          Nat.add_mod_right, Nat.mod_eq_of_lt (Nat.mod_lt _ hp), hfb]
  | remove =>
    rcases Nat.eq_zero_or_pos rb.m_count with hz | hpos
    · show WF rb.Remove.2.2 ∧ rb.Remove.2.2.m_elements = rb.m_elements
      rw [Remove_zero rb hz]
      exact ⟨⟨hlen, hp, hc65, hfr, hbk, hcnt, heq⟩, rfl⟩
    · obtain ⟨_, _, hwf, _, hel, _⟩ :=
        Remove_step rb ⟨hlen, hp, hc65, hfr, hbk, hcnt, heq⟩ hpos
      exact ⟨hwf, hel⟩
  | removeVoid =>
    rcases Nat.eq_zero_or_pos rb.m_count with hz | hpos
    · show WF rb.Remove.2.2 ∧ rb.Remove.2.2.m_elements = rb.m_elements
      rw [Remove_zero rb hz]
      exact ⟨⟨hlen, hp, hc65, hfr, hbk, hcnt, heq⟩, rfl⟩
    · obtain ⟨_, _, hwf, _, hel, _⟩ :=
        Remove_step rb ⟨hlen, hp, hc65, hfr, hbk, hcnt, heq⟩ hpos
      exact ⟨hwf, hel⟩

/-- A whole sequence of operations preserves well-formedness when the
capacity is at most `65534`. -/
theorem WF_runOps [Zero α] :
    ∀ (ops : List (Op α)) (rb : RingBuffer α), WF rb →
    rb.m_elements ≤ 65534 →
    WF (runOps rb ops) ∧ (runOps rb ops).m_elements = rb.m_elements := by
  intro ops
  induction ops with
  | nil => exact fun rb h _ => ⟨h, rfl⟩
  | cons op ops ih =>
    intro rb h hcap
    obtain ⟨hwf, hel⟩ := WF_runOp rb op h hcap
    have hstep : runOps rb (op :: ops) = runOps (runOp rb op) ops := rfl
    rw [hstep]
    obtain ⟨w1, w2⟩ := ih (runOp rb op) hwf (by rw [hel]; exact hcap)
    exact ⟨w1, by rw [w2, hel]⟩

/-- Closed form for `k` successive `Add(0)` calls on a fresh buffer of
capacity `65535`: the eviction branch never runs, so `m_back` stays `0`
while the count wraps modulo `2 ^ 16` and the write cursor cycles modulo
`65535`. -/
theorem addRep_wrap (k : Nat) :
    (runOps (mkRingBuffer 65535 (fun i => (0 : Int)))
        (List.replicate k (Op.add 0))).m_elements = 65535 ∧
    (runOps (mkRingBuffer 65535 (fun i => (0 : Int)))
        (List.replicate k (Op.add 0))).m_front = k % 65535 ∧
    (runOps (mkRingBuffer 65535 (fun i => (0 : Int)))
        (List.replicate k (Op.add 0))).m_back = 0 ∧
    (runOps (mkRingBuffer 65535 (fun i => (0 : Int)))
        (List.replicate k (Op.add 0))).m_count = k % 65536 := by
  induction k with
  | zero => exact ⟨rfl, rfl, rfl, rfl⟩
  | succ m ih =>
    obtain ⟨ie, ifr, ib, ic⟩ := ih
    have hrep : List.replicate (m + 1) (Op.add (0 : Int)) =
        List.replicate m (Op.add 0) ++ [Op.add 0] := List.replicate_succ' m _
    rw [hrep, runOps_append]
    have hone : ∀ s : RingBuffer Int, runOps s [Op.add 0] = (s.Add 0).2 := by
      intro s
      rfl
    rw [hone]
    obtain ⟨_, a2, a3, a4, a5⟩ :=
      Add_cap65535_step (runOps (mkRingBuffer 65535 (fun i => (0 : Int)))
        (List.replicate m (Op.add 0))) (0 : Int) ie
    refine ⟨a2, ?_, ?_, ?_⟩
    · rw [a3, ifr, advanceIndex_eq 65535 (m % 65535)
        (Nat.mod_lt _ (by norm_num)) (by norm_num), Nat.mod_add_mod]
    · rw [a4, ib]
    · rw [a5, ic, Nat.mod_add_mod]

/-! ### The claims -/

/-- C1 (amended): for every well-formed buffer state with capacity at most
`65535`, `Add(v)` writes `v` into slot `front` and advances `front` by one
modulo the capacity; if the buffer was not full it increments the count,
leaves `back` alone and returns `true`; if it was full AND the capacity is
at most `65534`, it has overwritten the oldest element's slot (`front`
coincides with `back` under the cursor invariant), advances `back` by one
modulo the capacity, leaves the count at the capacity, and returns `false`.
(At capacity `65535` the full branch fails: see the counterexample.) -/
theorem C1_add_contract (rb : RingBuffer Int) (v : Int)
    (hlen : rb.m_ringbuffer.length = rb.m_elements)
    (hfr : rb.m_front < rb.m_elements)
    (hbk : rb.m_back < rb.m_elements)
    (hcnt : rb.m_count ≤ rb.m_elements)
    (hcap : rb.m_elements ≤ 65535) :
    (rb.Add v).2.m_ringbuffer = rb.m_ringbuffer.set rb.m_front v ∧
    (rb.Add v).2.m_front = (rb.m_front + 1) % rb.m_elements ∧
    (rb.Add v).2.m_elements = rb.m_elements ∧
    (rb.m_count < rb.m_elements →
      (rb.Add v).1 = true ∧ (rb.Add v).2.m_count = rb.m_count + 1 ∧
      (rb.Add v).2.m_back = rb.m_back) ∧
    (rb.m_count = rb.m_elements → rb.m_elements ≤ 65534 →
      (rb.Add v).1 = false ∧ (rb.Add v).2.m_count = rb.m_elements ∧
      (rb.Add v).2.m_back = (rb.m_back + 1) % rb.m_elements ∧
      (rb.m_front = (rb.m_back + rb.m_count) % rb.m_elements →
        rb.m_front = rb.m_back)) := by
  rcases Nat.lt_or_ge rb.m_count rb.m_elements with hlt | hge
  · rw [Add_not_full rb v hcap hlt]
    refine ⟨rfl, ?_, rfl, fun _ => ⟨rfl, rfl, rfl⟩, fun he _ => absurd he (by omega)⟩
    show AdvanceIndex rb.m_elements rb.m_front = (rb.m_front + 1) % rb.m_elements
    exact advanceIndex_eq _ _ hfr hcap
  · have hfull : rb.m_count = rb.m_elements := by omega
    rcases Nat.lt_or_ge rb.m_elements 65535 with hsm | hbig
    · rw [Add_full rb v (by omega) hfull]
      refine ⟨rfl, ?_, rfl, fun hc => absurd hc (by omega), fun _ _ => ⟨rfl, rfl, ?_, ?_⟩⟩
      · show AdvanceIndex rb.m_elements rb.m_front = (rb.m_front + 1) % rb.m_elements
        exact advanceIndex_eq _ _ hfr hcap
      · show AdvanceIndex rb.m_elements rb.m_back = (rb.m_back + 1) % rb.m_elements
        exact advanceIndex_eq _ _ hbk hcap
      · intro heq
        rw [heq, hfull, Nat.add_mod_right, Nat.mod_eq_of_lt hbk]
    · have he : rb.m_elements = 65535 := by omega
      rw [Add_wrap rb v he (by omega)]
      refine ⟨rfl, ?_, rfl, fun hc => absurd hc (by omega),
        fun _ hc => absurd hc (by omega)⟩
      show AdvanceIndex rb.m_elements rb.m_front = (rb.m_front + 1) % rb.m_elements
      exact advanceIndex_eq _ _ hfr hcap

/-- C1 counterexample: on the reachable full buffer of capacity `65535`
(`m_count = m_elements = 65535`), the claim predicts `Add` returns `false`,
leaves the count at `65535` and advances `back` to `1`; the code instead
returns `true`, wraps the count to `0` and leaves `back` at `0`, because
the `uint16_t` increment of `m_count` wraps to `0` and `0 > 65535` fails. -/
theorem C1_add_contract_counterexample :
    rbFull.m_count = rbFull.m_elements ∧
    (rbFull.Add 1).1 = true ∧
    (rbFull.Add 1).2.m_count = 0 ∧
    (rbFull.Add 1).2.m_back = 0 := by
  have h := Add_wrap rbFull 1 rfl rfl
  exact ⟨rfl, by rw [h], by rw [h], by rw [h]; rfl⟩

/-- C1 witness: the amended contract applied to the concrete full buffer
`fullThree` of capacity 3: `Add 9` evicts, reports `false`, keeps the count
at 3 and advances `back`. -/
theorem C1_add_contract_witness :
    fullThree.m_count = fullThree.m_elements ∧ fullThree.m_elements ≤ 65534 ∧
    (fullThree.Add 9).1 = false ∧
    (fullThree.Add 9).2.m_ringbuffer = [9, 6, 7] ∧
    (fullThree.Add 9).2.m_back = 1 ∧
    (fullThree.Add 9).2.m_count = 3 :=
  ⟨rfl, by decide,
    ((C1_add_contract fullThree 9 rfl (by decide) (by decide) (by decide)
      (by decide)).2.2.2.2 rfl (by decide)).1,
    by decide, by decide, by decide⟩

/-- C2: on any buffer with `m_count > 0` (cursor in range, `uint16_t`
capacity), `Remove(outVal)` returns `true` together with the value stored
at slot `back`, clears that slot to zero, advances `back` by one modulo the
capacity, decrements the count by one, and touches neither `front` nor the
capacity. -/
theorem C2_remove_contract (rb : RingBuffer Int)
    (hbk : rb.m_back < rb.m_elements)
    (hcap : rb.m_elements ≤ 65535)
    (hpos : 0 < rb.m_count) :
    rb.Remove.1 = true ∧
    rb.Remove.2.1 = rb.m_ringbuffer.getD rb.m_back 0 ∧
    rb.Remove.2.2.m_ringbuffer = rb.m_ringbuffer.set rb.m_back 0 ∧
    rb.Remove.2.2.m_back = (rb.m_back + 1) % rb.m_elements ∧
    rb.Remove.2.2.m_count = rb.m_count - 1 ∧
    rb.Remove.2.2.m_front = rb.m_front ∧
    rb.Remove.2.2.m_elements = rb.m_elements := by
  rw [Remove_pos rb hpos]
  refine ⟨rfl, rfl, rfl, ?_, rfl, rfl, rfl⟩
  show AdvanceIndex rb.m_elements rb.m_back = (rb.m_back + 1) % rb.m_elements
  exact advanceIndex_eq _ _ hbk hcap

/-- C2 witness: the contract applied to the spec's state 3 (`wrapState`,
the full capacity-10 buffer `[11,12,3..10]` with `front = back = 2`),
together with the spec's two-`Remove` scenario: slots 2 and 3 end up
zeroed, `back = 4`, `count = 8`. -/
theorem C2_remove_contract_witness :
    0 < wrapState.m_count ∧
    wrapState.Remove.1 = true ∧
    wrapState.Remove.2.1 = 3 ∧
    wrapState.Remove.2.2.Remove.2.2.m_ringbuffer =
      [11, 12, 0, 0, 5, 6, 7, 8, 9, 10] ∧
    wrapState.Remove.2.2.Remove.2.2.m_back = 4 ∧
    wrapState.Remove.2.2.Remove.2.2.m_count = 8 :=
  ⟨by decide,
    (C2_remove_contract wrapState (by decide) (by decide) (by decide)).1,
    by decide, by decide, by decide, by decide⟩

/-- C3: FIFO order — starting from a freshly constructed buffer of any
nonzero `uint16_t` capacity (with arbitrary indeterminate initial slot
contents `mem`) and any list of at most `capacity` values, performing the
`Add` calls and then as many `Remove` calls returns exactly the inserted
values, in insertion order, each `Remove` reporting success. -/
theorem C3_fifo (vs : List Int) (cap : Nat) (mem : Nat → Int)
    (h0 : 0 < cap) (hcap : cap ≤ 65535) (hlen : vs.length ≤ cap) :
    (removeN (addAll (mkRingBuffer cap mem) vs) vs.length).1 =
      vs.map (fun v => (true, v)) := by
  have hwf := mk_WF cap mem h0 hcap
  have hle : (mkRingBuffer cap mem).m_count + vs.length ≤
      (mkRingBuffer cap mem).m_elements := by
    show 0 + vs.length ≤ cap % 65536
    rw [Nat.mod_eq_of_lt (by omega)]
    omega
  obtain ⟨awf, ael, abk, acnt, acont⟩ := addAll_spec vs (mkRingBuffer cap mem) hwf hle
  have hc : vs.length ≤ (addAll (mkRingBuffer cap mem) vs).m_count := by
    rw [acnt]
    show vs.length ≤ 0 + vs.length
    omega
  rw [removeN_spec vs.length _ awf hc, acont, contents_mk,
    List.nil_append, List.take_length]

/-- C3 witness: inserting `[1, 2, 3]` into a fresh capacity-3 buffer and
removing three times yields `1, 2, 3` in order, each removal succeeding. -/
theorem C3_fifo_witness :
    (0 < 3 ∧ 3 ≤ 65535 ∧ ([1, 2, 3] : List Int).length ≤ 3) ∧
    (removeN (addAll (mkRingBuffer 3 (fun i => (0 : Int))) [1, 2, 3]) 3).1 =
      [(true, 1), (true, 2), (true, 3)] := by
  refine ⟨by decide, ?_⟩
  have h := C3_fifo [1, 2, 3] 3 (fun i => (0 : Int)) (by decide) (by decide)
    (by decide)
  simpa using h

/-- C4 (amended): for every buffer created with a positive capacity of at
most `65534` and every sequence of `Add`/`Remove` calls, the state
invariant holds afterwards (so, instantiating with each prefix, after each
operation): `count ≤ capacity`, both cursors lie in `[0, capacity)`, and
`front = back` whenever the buffer is empty or full.  (At the maximal
capacity `65535` the `front = back`-when-empty clause fails: see the
counterexample.) -/
theorem C4_invariant (cap : Nat) (mem : Nat → Int) (ops : List (Op Int))
    (h0 : 0 < cap) (hcap : cap ≤ 65534) :
    StateInv (runOps (mkRingBuffer cap mem) ops) := by
  have hwf := mk_WF cap mem h0 (by omega)
  have hel : (mkRingBuffer cap mem).m_elements ≤ 65534 := by
    show cap % 65536 ≤ 65534
    rw [Nat.mod_eq_of_lt (by omega)]
    exact hcap
  obtain ⟨w, wel⟩ := WF_runOps ops (mkRingBuffer cap mem) hwf hel
  obtain ⟨hlen, hp, hc65, hfr, hbk, hcnt, heq⟩ := w
  refine ⟨hcnt, hfr, hbk, ?_⟩
  rintro (h | h)
  · rw [heq, h, Nat.add_zero, Nat.mod_eq_of_lt hbk]
  · rw [heq, h, Nat.add_mod_right, Nat.mod_eq_of_lt hbk]

/-- C4 counterexample: capacity `65535` is positive, yet after the 65536th
consecutive `Add` on a fresh capacity-65535 buffer the `uint16_t` count has
wrapped to `0` while `front = 1` and `back = 0`: the claimed invariant
clause `front == back` whenever `count == 0` is violated. -/
theorem C4_invariant_counterexample :
    (runOps (mkRingBuffer 65535 (fun i => (0 : Int)))
        (List.replicate 65536 (Op.add 0))).m_elements = 65535 ∧
    (runOps (mkRingBuffer 65535 (fun i => (0 : Int)))
        (List.replicate 65536 (Op.add 0))).m_count = 0 ∧
    (runOps (mkRingBuffer 65535 (fun i => (0 : Int)))
        (List.replicate 65536 (Op.add 0))).m_front = 1 ∧
    (runOps (mkRingBuffer 65535 (fun i => (0 : Int)))
        (List.replicate 65536 (Op.add 0))).m_back = 0 ∧
    ¬ StateInv (runOps (mkRingBuffer 65535 (fun i => (0 : Int)))
        (List.replicate 65536 (Op.add 0))) := by
  obtain ⟨e, f, b, c⟩ := addRep_wrap 65536
  have hc : (runOps (mkRingBuffer 65535 (fun i => (0 : Int)))
      (List.replicate 65536 (Op.add 0))).m_count = 0 := by
    rw [c]
  have hf : (runOps (mkRingBuffer 65535 (fun i => (0 : Int)))
      (List.replicate 65536 (Op.add 0))).m_front = 1 := by
    rw [f]
  refine ⟨e, hc, hf, b, ?_⟩
  intro hinv
  have := hinv.2.2.2 (Or.inl hc)
  rw [hf, b] at this
  exact absurd this (by norm_num)

/-- C4 witness: the invariant after a concrete mixed sequence on a
capacity-2 buffer (three inserts, the third evicting, then one removal). -/
theorem C4_invariant_witness :
    ((0 : Nat) < 2 ∧ (2 : Nat) ≤ 65534) ∧
    StateInv (runOps (mkRingBuffer 2 (fun i => (0 : Int)))
      [Op.add 1, Op.add 2, Op.add 3, Op.remove]) :=
  ⟨by decide, C4_invariant 2 (fun i => (0 : Int))
    [Op.add 1, Op.add 2, Op.add 3, Op.remove] (by decide) (by decide)⟩

/-- C5: `Remove` on an empty buffer (`m_count = 0`) leaves the state
entirely unchanged — cursors, count and every storage slot — returns
`false` with the zero value in the output slot (in both the
value-yielding and value-discarding forms), and repeating it any number of
times does exactly the same each time. -/
theorem C5_remove_empty (rb : RingBuffer Int) (h : rb.m_count = 0) :
    rb.Remove = (false, 0, rb) ∧
    rb.RemoveVoid = (false, rb) ∧
    ∀ n : Nat, removeN rb n = (List.replicate n (false, 0), rb) := by
  refine ⟨Remove_zero rb h, ?_, ?_⟩
  · show (rb.Remove.1, rb.Remove.2.2) = (false, rb)
    rw [Remove_zero rb h]
  · intro n
    induction n with
    | zero => rfl
    | succ m ihm =>
      simp only [removeN, Remove_zero rb h, ihm, List.replicate_succ]

/-- C5 witness: the empty-removal contract applied to `idleState` (cursors
at 2, stale data `[7,8,9]` in storage), iterated five times. -/
theorem C5_remove_empty_witness :
    idleState.m_count = 0 ∧
    idleState.Remove = (false, 0, idleState) ∧
    removeN idleState 5 = (List.replicate 5 (false, 0), idleState) :=
  ⟨rfl, (C5_remove_empty idleState rfl).1, (C5_remove_empty idleState rfl).2.2 5⟩

/-- C6: from a freshly constructed buffer of any nonzero `uint16_t`
capacity, performing exactly `capacity` `Add` calls brings the state back
to `front = back = 0` (with `count = capacity`); and each single index
advancement steps deterministically through `[0, capacity)`, returning to
`0` exactly upon reaching the capacity. -/
theorem C6_wraparound (cap : Nat) (mem : Nat → Int) (vs : List Int)
    (h0 : 0 < cap) (hcap : cap ≤ 65535) (hlen : vs.length = cap) :
    (addAll (mkRingBuffer cap mem) vs).m_front = 0 ∧
    (addAll (mkRingBuffer cap mem) vs).m_back = 0 ∧
    (addAll (mkRingBuffer cap mem) vs).m_count = cap ∧
    ∀ ix : Nat, ix < cap →
      AdvanceIndex cap ix = (if ix + 1 = cap then 0 else ix + 1) ∧
      AdvanceIndex cap ix < cap := by
  have hwf := mk_WF cap mem h0 hcap
  have hle : (mkRingBuffer cap mem).m_count + vs.length ≤
      (mkRingBuffer cap mem).m_elements := by
    show 0 + vs.length ≤ cap % 65536
    rw [Nat.mod_eq_of_lt (by omega)]
    omega
  obtain ⟨awf, ael, abk, acnt, acont⟩ := addAll_spec vs (mkRingBuffer cap mem) hwf hle
  obtain ⟨alen, ap, ac65, afr, abk2, acnt2, aeq⟩ := awf
  have hel : (mkRingBuffer cap mem).m_elements = cap := by
    show cap % 65536 = cap
    exact Nat.mod_eq_of_lt (by omega)
  have hb0 : (addAll (mkRingBuffer cap mem) vs).m_back = 0 := by
    rw [abk]
    rfl
  have hcnt : (addAll (mkRingBuffer cap mem) vs).m_count = cap := by
    rw [acnt, hlen]
    show 0 + cap = cap
    omega
  refine ⟨?_, hb0, hcnt, ?_⟩
  · rw [aeq, hb0, hcnt, ael, hel, Nat.zero_add, Nat.mod_self]
  · intro ix hix
    rw [advanceIndex_eq cap ix hix hcap]
    constructor
    · by_cases h : ix + 1 = cap
      · rw [if_pos h, h, Nat.mod_self]
      · rw [if_neg h, Nat.mod_eq_of_lt (by omega)]
    · exact Nat.mod_lt _ h0

/-- C6 witness: three inserts into a fresh capacity-3 buffer bring the
cursors back to `0`, and `AdvanceIndex 3` cycles `0 → 1 → 2 → 0`. -/
theorem C6_wraparound_witness :
    ((0 : Nat) < 3 ∧ (3 : Nat) ≤ 65535 ∧ ([4, 5, 6] : List Int).length = 3) ∧
    (addAll (mkRingBuffer 3 (fun i => (0 : Int))) [4, 5, 6]).m_front = 0 ∧
    (addAll (mkRingBuffer 3 (fun i => (0 : Int))) [4, 5, 6]).m_back = 0 ∧
    AdvanceIndex 3 0 = 1 ∧ AdvanceIndex 3 1 = 2 ∧ AdvanceIndex 3 2 = 0 :=
  ⟨by decide,
    (C6_wraparound 3 (fun i => (0 : Int)) [4, 5, 6] (by decide) (by decide)
      (by decide)).1,
    (C6_wraparound 3 (fun i => (0 : Int)) [4, 5, 6] (by decide) (by decide)
      (by decide)).2.1,
    by decide, by decide, by decide⟩

/-- C7 (amended): the constructor performs no capacity validation: called
with `0` it happily produces a buffer object with capacity `0`, empty
storage and `front = back = count = 0` (on which the indexing done by a
subsequent `Add`/`Remove` would be out of bounds — undefined behavior in
the C++), rather than failing fast. -/
theorem C7_zero_capacity_accepted (mem : Nat → Int) :
    mkRingBuffer 0 mem = ⟨0, [], 0, 0, 0⟩ := rfl

/-- C7 counterexample: construction with capacity `0` does not reject its
argument — it returns a zero-capacity buffer object (shown here for the
concrete ambient memory state that is all zeros). -/
theorem C7_zero_capacity_counterexample :
    mkRingBuffer 0 (fun i => (0 : Int)) = ⟨0, [], 0, 0, 0⟩ ∧
    (mkRingBuffer 0 (fun i => (0 : Int))).m_elements = 0 := ⟨rfl, rfl⟩

/-- C8 (amended): construction with a positive `uint16_t` capacity yields
`front = back = count = 0` and a backing storage of exactly `capacity`
slots; but the slots are default-initialized (`new DataType[n]`), so their
contents are exactly the pre-existing indeterminate memory `mem` — for
numeric/POD-like element types they are NOT cleared to zero. -/
theorem C8_construction (size : Nat) (mem : Nat → Int) (hcap : size ≤ 65535) :
    (mkRingBuffer size mem).m_front = 0 ∧
    (mkRingBuffer size mem).m_back = 0 ∧
    (mkRingBuffer size mem).m_count = 0 ∧
    (mkRingBuffer size mem).m_elements = size ∧
    (mkRingBuffer size mem).m_ringbuffer.length = size ∧
    (mkRingBuffer size mem).m_ringbuffer = (List.range size).map mem := by
  have hs : size % 65536 = size := Nat.mod_eq_of_lt (by omega)
  unfold mkRingBuffer
  rw [hs]
  exact ⟨rfl, rfl, rfl, rfl, by simp, rfl⟩

/-- C8 counterexample: with ambient memory holding ones, the freshly
constructed capacity-1 buffer's slot holds `1`, not the element type's
default value `0` — the constructor never writes the slots. -/
theorem C8_construction_counterexample :
    (mkRingBuffer 1 (fun i => (1 : Int))).m_ringbuffer = [1] ∧
    (mkRingBuffer 1 (fun i => (1 : Int))).m_ringbuffer ≠ [0] := by
  exact ⟨rfl, by decide⟩

/-- C8 witness: the amended construction contract at capacity 2 with
ambient memory holding sevens. -/
theorem C8_construction_witness :
    ((2 : Nat) ≤ 65535) ∧
    (mkRingBuffer 2 (fun i => (7 : Int))).m_front = 0 ∧
    (mkRingBuffer 2 (fun i => (7 : Int))).m_count = 0 ∧
    (mkRingBuffer 2 (fun i => (7 : Int))).m_elements = 2 ∧
    (mkRingBuffer 2 (fun i => (7 : Int))).m_ringbuffer.length = 2 :=
  ⟨by decide,
    (C8_construction 2 (fun i => (7 : Int)) (by decide)).1,
    (C8_construction 2 (fun i => (7 : Int)) (by decide)).2.2.1,
    (C8_construction 2 (fun i => (7 : Int)) (by decide)).2.2.2.1,
    (C8_construction 2 (fun i => (7 : Int)) (by decide)).2.2.2.2.1⟩

/-- C9: the value-discarding `Remove(void)` is definitionally a call to the
value-yielding `Remove(DataType&)` on a scratch variable: for every buffer
state it returns the same boolean and produces the identical post-state
(cursors, count and storage included), differing only in not surfacing the
removed value. -/
theorem C9_removeVoid_refines_remove (rb : RingBuffer Int) :
    rb.RemoveVoid.1 = rb.Remove.1 ∧ rb.RemoveVoid.2 = rb.Remove.2.2 :=
  ⟨rfl, rfl⟩

/-- C10: `m_count` and `m_elements` are `uint16_t`; on a full buffer of
capacity `65535` the increment in `Add` wraps to `0`, the test
`m_count > m_elements` fails, and `Add` returns `true` with `count = 0`
and `back` unmoved — no eviction bookkeeping happens.  For capacities up
to `65534` the increment cannot wrap, and `Add` on a full buffer does
report `false`, keep the count at the capacity, and advance `back`. -/
theorem C10_count_wraps (rb : RingBuffer Int) (v : Int)
    (hcap : rb.m_elements = 65535) (hcnt : rb.m_count = 65535) :
    ((rb.Add v).1 = true ∧ (rb.Add v).2.m_count = 0 ∧
      (rb.Add v).2.m_back = rb.m_back) ∧
    ∀ (rb' : RingBuffer Int) (w : Int), rb'.m_elements ≤ 65534 →
      rb'.m_count = rb'.m_elements →
      (rb'.Add w).1 = false ∧ (rb'.Add w).2.m_count = rb'.m_elements ∧
      (rb'.Add w).2.m_back = AdvanceIndex rb'.m_elements rb'.m_back := by
  constructor
  · rw [Add_wrap rb v hcap hcnt]
    exact ⟨rfl, rfl, rfl⟩
  · intro rb' w h1 h2
    rw [Add_full rb' w h1 h2]
    exact ⟨rfl, rfl, rfl⟩

/-- C10 witness: the wrap behavior on the concrete full capacity-65535
buffer `rbFull`. -/
theorem C10_count_wraps_witness :
    rbFull.m_elements = 65535 ∧ rbFull.m_count = 65535 ∧
    (rbFull.Add 1).1 = true ∧ (rbFull.Add 1).2.m_count = 0 :=
  ⟨rfl, rfl, (C10_count_wraps rbFull 1 rfl rfl).1.1,
    (C10_count_wraps rbFull 1 rfl rfl).1.2.1⟩
